import Mathlib

/-!
Verification of the pitchfork-api repository against its specification.

The development shallowly embeds the pure logic of the repository's modules:

* `utils/parsing.py` — text cleaning and URL normalization, over `List Char`
  and `String`;
* `sentiment.py`     — assessment bucketing and key-term extraction;
* `utils/cache.py`   — the expiring disk cache, with the file system made an
  explicit association list from paths to file contents;
* `scraper.py`       — review extraction from a parsed document and the
  paginated latest-reviews loop, with the HTML document and the network made
  explicit data.

Machine floats of the Python source are modelled as rationals; `time.time()`
values as integers supplied explicitly.
-/

namespace PitchforkApi

/-! ### Text normalizer (`utils/parsing.py`) -/

/-- Whitespace class of the Python regex `\s` and of `str.strip`
(ASCII range; the rare non-ASCII Unicode whitespace is not modelled, and no
theorem below depends on the exact membership of the class). -/
def isPySpace (c : Char) : Bool :=
  c == ' ' || c == '\t' || c == '\n' || c == '\r' || c == '\x0b' || c == '\x0c'

theorem length_dropWhile_le (p : Char → Bool) (l : List Char) :
    (l.dropWhile p).length ≤ l.length :=
  (List.dropWhile_sublist (l := l) (p := p)).length_le

/-- Single-pass worker for `re.sub(r'\s+', ' ', text)`.  The flag records
whether the scanner is inside a whitespace run whose single replacement space
has already been emitted. -/
def collapseWsAux : Bool → List Char → List Char
  | _, [] => []
  | inRun, c :: cs =>
    if isPySpace c then
      if inRun then collapseWsAux true cs else ' ' :: collapseWsAux true cs
    else c :: collapseWsAux false cs

/-- Model of `re.sub(r'\s+', ' ', text)`: every maximal run of whitespace
characters is replaced by a single space. -/
def collapseWs (l : List Char) : List Char := collapseWsAux false l

theorem collapseWsAux_true (cs : List Char) :
    collapseWsAux true cs = collapseWsAux false (cs.dropWhile isPySpace) := by
  induction cs with
  | nil => rfl
  | cons c cs ih =>
    by_cases hc : isPySpace c = true
    · simp [collapseWsAux, hc, ih, List.dropWhile_cons]
    · simp [collapseWsAux, hc, List.dropWhile_cons]

theorem collapseWs_nil : collapseWs [] = [] := rfl

/-- Recurrence of `collapseWs` in terms of maximal whitespace runs. -/
theorem collapseWs_cons (c : Char) (cs : List Char) :
    collapseWs (c :: cs) =
      if isPySpace c then ' ' :: collapseWs (cs.dropWhile isPySpace)
      else c :: collapseWs cs := by
  by_cases hc : isPySpace c = true
  · simp only [collapseWs, collapseWsAux, if_pos hc, Bool.false_eq_true, if_false,
      collapseWsAux_true]
  · simp only [collapseWs, collapseWsAux, hc, Bool.false_eq_true, if_false]

/-- Left part of `str.strip()`. -/
def lstripWs (l : List Char) : List Char := l.dropWhile isPySpace

/-- Right part of `str.strip()`. -/
def rstripWs (l : List Char) : List Char := (l.reverse.dropWhile isPySpace).reverse

/-- Model of `str.strip()`. -/
def stripWs (l : List Char) : List Char := rstripWs (lstripWs l)

/-- Function `clean_text` from `utils/parsing.py`: empty (falsy) input short-circuits
to the empty string; otherwise whitespace runs are collapsed and the ends are
stripped. -/
def clean_text (l : List Char) : List Char :=
  if l = [] then [] else stripWs (collapseWs l)

/-- Function `clean_text` lifted to `String`, as the scraper applies it. -/
def cleanTextS (s : String) : String := String.mk (clean_text s.data)

/-- Model of Python `str.startswith`. -/
def pyStartsWith (s p : String) : Bool := p.data.isPrefixOf s.data

/-- Model of `str.rstrip('/')`: remove every trailing `'/'`. -/
def rstripSlashes (s : String) : String :=
  String.mk ((s.data.reverse.dropWhile (· == '/')).reverse)

/-- Function `normalize_url` from `utils/parsing.py`. -/
def normalize_url (url base_url : String) : String :=
  if pyStartsWith url "http" then url
  else if pyStartsWith url "/" then rstripSlashes base_url ++ url
  else rstripSlashes base_url ++ "/" ++ url

/-- Well-formed whitespace shape: no two adjacent whitespace characters, and
every whitespace character is a plain space. -/
def goodWs (l : List Char) : Prop :=
  List.Chain' (fun a b => isPySpace a = false ∨ isPySpace b = false) l ∧
    ∀ c ∈ l, isPySpace c = true → c = ' '

theorem head?_dropWhile_false {p : Char → Bool} :
    ∀ {l : List Char} {c : Char}, (l.dropWhile p).head? = some c → p c = false := by
  intro l
  induction l with
  | nil => intro c h; simp [List.dropWhile] at h
  | cons a as ih =>
    intro c h
    rw [List.dropWhile_cons] at h
    by_cases hp : p a = true
    · rw [if_pos hp] at h; exact ih h
    · rw [if_neg hp] at h
      simp only [List.head?_cons, Option.some.injEq] at h
      subst h
      exact Bool.of_not_eq_true hp

theorem collapseWs_head? :
    ∀ {l : List Char} {c : Char}, l.head? = some c → isPySpace c = false →
      (collapseWs l).head? = some c := by
  intro l c h hc
  cases l with
  | nil => simp at h
  | cons a as =>
    simp only [List.head?_cons, Option.some.injEq] at h
    subst h
    rw [collapseWs_cons, if_neg (by simp [hc])]
    rfl

theorem goodWs_collapseWs : ∀ l : List Char, goodWs (collapseWs l) := by
  intro l
  generalize hl : l.length = n
  induction n using Nat.strong_induction_on generalizing l with
  | _ n ih =>
    cases l with
    | nil =>
      rw [collapseWs_nil]
      exact ⟨List.chain'_nil, by intro c hc; simp at hc⟩
    | cons a as =>
      by_cases ha : isPySpace a = true
      · rw [collapseWs_cons, if_pos ha]
        have hlen : (as.dropWhile isPySpace).length < (a :: as).length :=
          Nat.lt_succ_of_le (length_dropWhile_le _ _)
        have hrec := ih _ (hl ▸ hlen) (as.dropWhile isPySpace) rfl
        constructor
        · rw [List.chain'_cons']
          refine ⟨?_, hrec.1⟩
          intro y hy
          right
          cases hd : (as.dropWhile isPySpace).head? with
          | none =>
            have hnil : as.dropWhile isPySpace = [] := List.head?_eq_none_iff.mp hd
            rw [hnil] at hy
            simp [collapseWs_nil] at hy
          | some d =>
            have hdf : isPySpace d = false := head?_dropWhile_false hd
            rw [collapseWs_head? hd hdf] at hy
            simp only [Option.mem_def, Option.some.injEq] at hy
            subst hy
            exact hdf
        · intro c hc hsp
          rcases List.mem_cons.mp hc with h | h
          · exact h
          · exact hrec.2 c h hsp
      · rw [collapseWs_cons, if_neg (by simp [ha])]
        have hlen : as.length < (a :: as).length := Nat.lt_succ_of_le (Nat.le_refl _)
        have hrec := ih _ (hl ▸ hlen) as rfl
        constructor
        · rw [List.chain'_cons']
          exact ⟨fun y _ => Or.inl (Bool.of_not_eq_true ha), hrec.1⟩
        · intro c hc hsp
          rcases List.mem_cons.mp hc with h | h
          · subst h; exact absurd hsp ha
          · exact hrec.2 c h hsp

theorem goodWs_suffix {l l' : List Char} (h : goodWs l) (hs : l' <:+ l) : goodWs l' :=
  ⟨h.1.suffix hs, fun c hc hsp => h.2 c (hs.sublist.mem hc) hsp⟩

theorem goodWs_reverse {l : List Char} (h : goodWs l) : goodWs l.reverse := by
  constructor
  · rw [List.chain'_reverse]
    exact h.1.imp fun _ _ hab => hab.symm
  · intro c hc
    exact h.2 c (List.mem_reverse.mp hc)

theorem goodWs_stripWs {l : List Char} (h : goodWs l) : goodWs (stripWs l) := by
  have h1 : goodWs (lstripWs l) := goodWs_suffix h (List.dropWhile_suffix _)
  have h2 : goodWs (lstripWs l).reverse := goodWs_reverse h1
  have h3 : goodWs ((lstripWs l).reverse.dropWhile isPySpace) :=
    goodWs_suffix h2 (List.dropWhile_suffix _)
  exact goodWs_reverse h3

theorem rstripWs_isPrefixRel (l : List Char) : rstripWs l <+: l := by
  have h : (l.reverse.dropWhile isPySpace) <:+ l.reverse := List.dropWhile_suffix _
  have h2 := List.reverse_prefix.mpr h
  rwa [List.reverse_reverse] at h2

theorem head?_of_prefixRel {l t : List Char} {c : Char} (h : l <+: t)
    (hc : l.head? = some c) : t.head? = some c := by
  obtain ⟨r, rfl⟩ := h
  rw [List.head?_append, hc]
  rfl

theorem stripWs_head?_false {l : List Char} {c : Char}
    (h : (stripWs l).head? = some c) : isPySpace c = false :=
  head?_dropWhile_false (head?_of_prefixRel (rstripWs_isPrefixRel _) h)

theorem stripWs_getLast?_false {l : List Char} {c : Char}
    (h : (stripWs l).getLast? = some c) : isPySpace c = false := by
  rw [List.getLast?_eq_head?_reverse] at h
  have hrw : (stripWs l).reverse = (lstripWs l).reverse.dropWhile isPySpace := by
    simp [stripWs, rstripWs]
  rw [hrw] at h
  exact head?_dropWhile_false h

theorem collapseWs_eq_self : ∀ {l : List Char}, goodWs l → collapseWs l = l := by
  intro l
  induction l with
  | nil => intro _; rfl
  | cons a as ih =>
    intro h
    have htail : goodWs as := ⟨h.1.tail, fun c hc => h.2 c (List.mem_cons_of_mem _ hc)⟩
    by_cases ha : isPySpace a = true
    · have ha' : a = ' ' := h.2 a (List.mem_cons_self _ _) ha
      rw [collapseWs_cons, if_pos ha]
      cases as with
      | nil => simp [collapseWs_nil, ha']
      | cons b bs =>
        have hrel := (List.chain'_cons'.mp h.1).1 b rfl
        have hb : isPySpace b = false := by
          rcases hrel with hh | hh
          · rw [ha] at hh; cases hh
          · exact hh
        rw [List.dropWhile_cons, if_neg (by simp [hb]), ih htail, ha']
    · rw [collapseWs_cons, if_neg (by simp [ha]), ih htail]

theorem lstripWs_eq_self {l : List Char}
    (h : ∀ c, l.head? = some c → isPySpace c = false) : lstripWs l = l := by
  cases l with
  | nil => rfl
  | cons a as =>
    have := h a rfl
    simp [lstripWs, List.dropWhile_cons, this]

theorem rstripWs_eq_self {l : List Char}
    (h : ∀ c, l.getLast? = some c → isPySpace c = false) : rstripWs l = l := by
  unfold rstripWs
  have hrw : l.reverse.dropWhile isPySpace = l.reverse := by
    cases hr : l.reverse with
    | nil => rfl
    | cons a as =>
      have ha : l.getLast? = some a := by
        rw [List.getLast?_eq_head?_reverse, hr]
        rfl
      simp [List.dropWhile_cons, h a ha]
  rw [hrw, List.reverse_reverse]

/-- C10: the shared text-cleaning primitive `clean_text` is idempotent, its
output never has leading or trailing whitespace nor two consecutive whitespace
characters, and the empty input maps to the empty string. -/
theorem c10_clean_text_clean (l : List Char) :
    clean_text (clean_text l) = clean_text l ∧
    (∀ c, (clean_text l).head? = some c → isPySpace c = false) ∧
    (∀ c, (clean_text l).getLast? = some c → isPySpace c = false) ∧
    List.Chain' (fun a b => isPySpace a = false ∨ isPySpace b = false) (clean_text l) ∧
    clean_text ([] : List Char) = [] := by
  have hgood : ∀ m : List Char, goodWs (clean_text m) := by
    intro m
    unfold clean_text
    by_cases hm : m = []
    · rw [if_pos hm]
      exact ⟨List.chain'_nil, by simp⟩
    · rw [if_neg hm]
      exact goodWs_stripWs (goodWs_collapseWs _)
  have hhead : ∀ (m : List Char) c, (clean_text m).head? = some c → isPySpace c = false := by
    intro m c h
    unfold clean_text at h
    by_cases hm : m = []
    · rw [if_pos hm] at h
      simp at h
    · rw [if_neg hm] at h
      exact stripWs_head?_false h
  have hlast : ∀ (m : List Char) c, (clean_text m).getLast? = some c → isPySpace c = false := by
    intro m c h
    unfold clean_text at h
    by_cases hm : m = []
    · rw [if_pos hm] at h
      simp at h
    · rw [if_neg hm] at h
      exact stripWs_getLast?_false h
  refine ⟨?_, hhead l, hlast l, (hgood l).1, rfl⟩
  by_cases hm : clean_text l = []
  · rw [hm]
    rfl
  · conv_lhs => rw [clean_text]
    rw [if_neg hm, collapseWs_eq_self (hgood l)]
    simp only [stripWs]
    rw [lstripWs_eq_self (hhead l), rstripWs_eq_self (hlast l)]

/-- Witness for C10 at a concrete input. -/
theorem c10_clean_text_clean_witness :
    clean_text ("  an \t album  ".data) = "an album".data ∧
    clean_text (clean_text ("  an \t album  ".data)) = clean_text ("  an \t album  ".data) :=
  ⟨by decide, (c10_clean_text_clean ("  an \t album  ".data)).1⟩

/-- C9 (amended): strings beginning with `"http"` pass through `normalize_url`
unchanged (this covers every `http`/`https` absolute URL, but also any other
string that merely begins with `"http"`, while absolute URLs of other schemes
are not passed through); strings beginning with `'/'` are appended to the site
root after stripping the root's trailing `'/'` characters; every other string
is appended to the stripped site root with an inserted `'/'`. -/
theorem c9_normalize_url_cases (url base_url : String) :
    (pyStartsWith url "http" = true → normalize_url url base_url = url) ∧
    (pyStartsWith url "https://" = true → normalize_url url base_url = url) ∧
    (pyStartsWith url "http://" = true → normalize_url url base_url = url) ∧
    (pyStartsWith url "http" = false → pyStartsWith url "/" = true →
      normalize_url url base_url = rstripSlashes base_url ++ url) ∧
    (pyStartsWith url "http" = false → pyStartsWith url "/" = false →
      normalize_url url base_url = rstripSlashes base_url ++ "/" ++ url) := by
  have hmono : ∀ p q : String, p.data <+: q.data →
      pyStartsWith url q = true → pyStartsWith url p = true := by
    intro p q hpq hq
    have hq' : q.data <+: url.data := List.isPrefixOf_iff_prefix.mp hq
    exact List.isPrefixOf_iff_prefix.mpr (hpq.trans hq')
  refine ⟨?_, ?_, ?_, ?_, ?_⟩
  · intro h
    rw [normalize_url, if_pos h]
  · intro h
    rw [normalize_url, if_pos (hmono "http" "https://" (by decide) h)]
  · intro h
    rw [normalize_url, if_pos (hmono "http" "http://" (by decide) h)]
  · intro h1 h2
    rw [normalize_url, if_neg (by simp [h1]), if_pos h2]
  · intro h1 h2
    rw [normalize_url, if_neg (by simp [h1]), if_neg (by simp [h2])]

/-- Witness for C9 (amended) at concrete inputs. -/
theorem c9_normalize_url_cases_witness :
    pyStartsWith "https://pitchfork.com/reviews/x/" "https://" = true ∧
    normalize_url "https://pitchfork.com/reviews/x/" "https://pitchfork.com" =
      "https://pitchfork.com/reviews/x/" ∧
    pyStartsWith "/reviews/y/" "http" = false ∧
    pyStartsWith "/reviews/y/" "/" = true ∧
    normalize_url "/reviews/y/" "https://pitchfork.com" =
      "https://pitchfork.com/reviews/y/" :=
  ⟨by decide,
   (c9_normalize_url_cases "https://pitchfork.com/reviews/x/" "https://pitchfork.com").2.1
     (by decide),
   by decide, by decide,
   by have h := (c9_normalize_url_cases "/reviews/y/" "https://pitchfork.com").2.2.2.1
        (by decide) (by decide)
      rw [h]
      decide⟩

/-- C9 counterexample: an absolute URL whose scheme is not `http`-prefixed is
not returned unchanged, refuting the claim that every scheme-prefixed URL
passes through. -/
theorem c9_counterexample :
    normalize_url "ftp://example.com/x" "https://pitchfork.com" ≠ "ftp://example.com/x" ∧
    normalize_url "ftp://example.com/x" "https://pitchfork.com" =
      "https://pitchfork.com/ftp://example.com/x" :=
  ⟨by decide, by decide⟩

/-! ### Sentiment scorer (`sentiment.py`) -/

/-- Method `SentimentAnalyzer._get_assessment`.  Python floats are modelled as
rationals; the literals `0.6`, `0.2` are the exact values `6/10`, `2/10`. -/
def get_assessment (p : ℚ) : String :=
  if 6/10 ≤ p then "very positive"
  else if 2/10 ≤ p then "positive"
  else if -(2/10) < p then "neutral"
  else if -(6/10) < p then "negative"
  else "very negative"

/-- C6: assessment bucketing is total and non-overlapping with exact
boundaries at `0.6`, `0.2`, `-0.2`, `-0.6`. -/
theorem c6_get_assessment_buckets (p : ℚ) :
    (get_assessment p = "very positive" ↔ 6/10 ≤ p) ∧
    (get_assessment p = "positive" ↔ 2/10 ≤ p ∧ p < 6/10) ∧
    (get_assessment p = "neutral" ↔ -(2/10) < p ∧ p < 2/10) ∧
    (get_assessment p = "negative" ↔ -(6/10) < p ∧ p ≤ -(2/10)) ∧
    (get_assessment p = "very negative" ↔ p ≤ -(6/10)) ∧
    (get_assessment p = "very positive" ∨ get_assessment p = "positive" ∨
      get_assessment p = "neutral" ∨ get_assessment p = "negative" ∨
      get_assessment p = "very negative") := by
  unfold get_assessment
  split_ifs with h1 h2 h3 h4 <;>
    refine ⟨⟨fun hx => ?_, fun hb => ?_⟩, ⟨fun hx => ?_, fun hb => ?_⟩,
      ⟨fun hx => ?_, fun hb => ?_⟩, ⟨fun hx => ?_, fun hb => ?_⟩,
      ⟨fun hx => ?_, fun hb => ?_⟩, ?_⟩ <;>
    try obtain ⟨hb1, hb2⟩ := hb
  all_goals
    first
      | rfl
      | exact absurd hx (by decide)
      | linarith
      | (exact (by linarith : False).elim)
      | constructor <;> linarith
      | simp

/-! Key-term extraction (`SentimentAnalyzer._extract_key_terms`). -/

def POSITIVE_TERMS : List String :=
  ["masterpiece", "brilliant", "exceptional", "outstanding", "innovative",
   "groundbreaking", "excellent", "superb", "stunning", "impressive",
   "perfect", "visionary", "captivating", "spectacular", "remarkable"]

def NEGATIVE_TERMS : List String :=
  ["disappointing", "mediocre", "uninspired", "bland", "derivative",
   "forgettable", "underwhelming", "tedious", "redundant", "unimaginative",
   "generic", "lackluster", "monotonous", "dull", "pretentious"]

/-- Model of the Python substring test `term in text`. -/
def occursIn (term : List Char) : List Char → Bool
  | [] => term.isPrefixOf ([] : List Char)
  | c :: cs => term.isPrefixOf (c :: cs) || occursIn term cs

/-- Word-constituent characters of the regex class `\w` (ASCII range). -/
def isWordChar (c : Char) : Bool := c.isAlphanum || c == '_'

/-- Whether `term` occurs at position `i` of `t` delimited by `\b` word
boundaries on both sides. -/
def wordOccursAt (term t : List Char) (i : Nat) : Bool :=
  ((t.drop i).take term.length == term) &&
  (match i with
   | 0 => true
   | j + 1 =>
     match t[j]? with
     | some c => !isWordChar c
     | none => true) &&
  (match t[i + term.length]? with
   | some c => !isWordChar c
   | none => true)

/-- Model of `len(re.findall(r'\b' + re.escape(term) + r'\b', text))` for the
all-alphabetic lexicon terms: boundary-delimited occurrences of such a term
never overlap, so the non-overlapping leftmost regex count equals the count of
starting positions. -/
def countWord (term t : List Char) : Nat :=
  (List.range (t.length + 1)).countP (fun i => wordOccursAt term t i)

/-- One entry of the `key_terms` result list. -/
structure KeyTerm where
  term : String
  sentiment : String
  count : Nat
deriving DecidableEq, Repr

/-- Insertion step of a stable descending sort by `count`; the element being
inserted is placed before the first entry whose count is not larger.  This is
exactly the result `list.sort(key=lambda x: x["count"], reverse=True)`
guarantees: descending by count, ties keeping original relative order. -/
def insertByCount (x : KeyTerm) : List KeyTerm → List KeyTerm
  | [] => [x]
  | y :: ys => if y.count ≤ x.count then x :: y :: ys else y :: insertByCount x ys

/-- Stable descending-by-count sort (model of Python `list.sort` with
`key=count, reverse=True`). -/
def sortByCount : List KeyTerm → List KeyTerm
  | [] => []
  | x :: xs => insertByCount x (sortByCount xs)

/-- Method `SentimentAnalyzer._extract_key_terms`: lowercase the text, collect every
positive then every negative lexicon term that occurs as a substring with its
whole-word occurrence count, sort descending by count (stable), keep 10. -/
def extract_key_terms (text : List Char) : List KeyTerm :=
  let t := text.map Char.toLower
  let pos := POSITIVE_TERMS.filterMap fun s =>
    if occursIn s.data t then some ⟨s, "positive", countWord s.data t⟩ else none
  let neg := NEGATIVE_TERMS.filterMap fun s =>
    if occursIn s.data t then some ⟨s, "negative", countWord s.data t⟩ else none
  (sortByCount (pos ++ neg)).take 10

/-- The lexicon as one list of (term, sentiment label) pairs, positives first —
the specification-side description of the candidate key terms. -/
def lexiconPairs : List (String × String) :=
  POSITIVE_TERMS.map (fun s => (s, "positive")) ++
    NEGATIVE_TERMS.map (fun s => (s, "negative"))

/-- Specification-side hit list: every lexicon term occurring as a substring
of the lowercased text, in lexicon order, with its whole-word count. -/
def keyTermHits (text : List Char) : List KeyTerm :=
  lexiconPairs.filterMap fun pr =>
    if occursIn pr.1.data (text.map Char.toLower) then
      some ⟨pr.1, pr.2, countWord pr.1.data (text.map Char.toLower)⟩
    else none

theorem insertByCount_perm (x : KeyTerm) (l : List KeyTerm) :
    (insertByCount x l).Perm (x :: l) := by
  induction l with
  | nil => exact List.Perm.refl _
  | cons y ys ih =>
    by_cases h : y.count ≤ x.count
    · rw [insertByCount, if_pos h]
    · rw [insertByCount, if_neg h]
      exact (ih.cons y).trans (List.Perm.swap x y ys)

theorem sortByCount_perm (l : List KeyTerm) : (sortByCount l).Perm l := by
  induction l with
  | nil => exact List.Perm.refl _
  | cons x xs ih =>
    exact (insertByCount_perm x (sortByCount xs)).trans (ih.cons x)

theorem insertByCount_sorted {l : List KeyTerm}
    (h : List.Pairwise (fun a b => b.count ≤ a.count) l) (x : KeyTerm) :
    List.Pairwise (fun a b => b.count ≤ a.count) (insertByCount x l) := by
  induction l with
  | nil => simp [insertByCount]
  | cons y ys ih =>
    rcases List.pairwise_cons.mp h with ⟨hy, hys⟩
    by_cases hc : y.count ≤ x.count
    · rw [insertByCount, if_pos hc]
      refine List.pairwise_cons.mpr ⟨?_, h⟩
      intro z hz
      rcases List.mem_cons.mp hz with rfl | hz'
      · exact hc
      · exact le_trans (hy z hz') hc
    · rw [insertByCount, if_neg hc]
      refine List.pairwise_cons.mpr ⟨?_, ih hys⟩
      intro z hz
      have hz' := (insertByCount_perm x ys).mem_iff.mp hz
      rcases List.mem_cons.mp hz' with rfl | hz''
      · exact le_of_lt (lt_of_not_le hc)
      · exact hy z hz''

theorem sortByCount_sorted (l : List KeyTerm) :
    List.Pairwise (fun a b => b.count ≤ a.count) (sortByCount l) := by
  induction l with
  | nil => simp [sortByCount]
  | cons x xs ih => exact insertByCount_sorted ih x

theorem filter_insertByCount (x : KeyTerm) (l : List KeyTerm) (n : Nat) :
    (insertByCount x l).filter (fun e => e.count == n) =
      (if x.count = n then [x] else []) ++ l.filter (fun e => e.count == n) := by
  induction l with
  | nil =>
    by_cases hx : x.count = n <;> simp [insertByCount, List.filter_cons, hx]
  | cons y ys ih =>
    by_cases hc : y.count ≤ x.count
    · rw [insertByCount, if_pos hc]
      by_cases hx : x.count = n <;> by_cases hy : y.count = n <;>
        simp [List.filter_cons, hx, hy]
    · rw [insertByCount, if_neg hc]
      by_cases hx : x.count = n <;> by_cases hy : y.count = n
      · omega
      · simp [List.filter_cons, hx, hy, ih]
      · simp [List.filter_cons, hx, hy, ih]
      · simp [List.filter_cons, hx, hy, ih]

theorem sortByCount_filter (l : List KeyTerm) (n : Nat) :
    (sortByCount l).filter (fun e => e.count == n) =
      l.filter (fun e => e.count == n) := by
  induction l with
  | nil => rfl
  | cons x xs ih =>
    rw [sortByCount, filter_insertByCount, ih]
    by_cases hx : x.count = n <;> simp [List.filter_cons, hx]

theorem extract_key_terms_eq (text : List Char) :
    extract_key_terms text = (sortByCount (keyTermHits text)).take 10 := by
  unfold extract_key_terms keyTermHits lexiconPairs
  simp only [List.filterMap_append, List.filterMap_map, Function.comp]
  rfl

/-- C3 (amended): `key_terms` lists exactly the lexicon terms occurring as a
case-insensitive substring of the lowercased text (not whole-word: the
membership test is a substring test, so a listed term's whole-word count may
be 0), each with its sentiment label and its whole-word occurrence count,
sorted descending by count with ties keeping the stable positive-then-negative
lexicon order, truncated to the top 10. -/
theorem c3_key_terms_amended (text : List Char) :
    extract_key_terms text = (sortByCount (keyTermHits text)).take 10 ∧
    (extract_key_terms text).length ≤ 10 ∧
    List.Pairwise (fun a b => b.count ≤ a.count) (extract_key_terms text) ∧
    (sortByCount (keyTermHits text)).Perm (keyTermHits text) ∧
    (∀ n : Nat, (sortByCount (keyTermHits text)).filter (fun e => e.count == n) =
      (keyTermHits text).filter (fun e => e.count == n)) ∧
    (∀ e ∈ extract_key_terms text,
      (e.term, e.sentiment) ∈ lexiconPairs ∧
      occursIn e.term.data (text.map Char.toLower) = true ∧
      e.count = countWord e.term.data (text.map Char.toLower)) ∧
    (∀ pr ∈ lexiconPairs, occursIn pr.1.data (text.map Char.toLower) = true →
      (keyTermHits text).length ≤ 10 →
      (⟨pr.1, pr.2, countWord pr.1.data (text.map Char.toLower)⟩ : KeyTerm) ∈
        extract_key_terms text) := by
  have heq := extract_key_terms_eq text
  have hsorted := sortByCount_sorted (keyTermHits text)
  have hperm := sortByCount_perm (keyTermHits text)
  refine ⟨heq, ?_, ?_, hperm, fun n => sortByCount_filter _ n, ?_, ?_⟩
  · rw [heq]
    exact List.length_take_le _ _
  · rw [heq]
    exact List.Pairwise.sublist (List.take_sublist _ _) hsorted
  · intro e he
    rw [heq] at he
    have he2 : e ∈ keyTermHits text :=
      hperm.mem_iff.mp ((List.take_sublist _ _).mem he)
    rcases List.mem_filterMap.mp he2 with ⟨pr, hpr, hsome⟩
    by_cases hocc : occursIn pr.1.data (text.map Char.toLower) = true
    · rw [if_pos hocc] at hsome
      cases hsome
      exact ⟨hpr, hocc, rfl⟩
    · rw [if_neg hocc] at hsome
      cases hsome
  · intro pr hpr hocc hlen
    have hmem : (⟨pr.1, pr.2, countWord pr.1.data (text.map Char.toLower)⟩ : KeyTerm) ∈
        keyTermHits text :=
      List.mem_filterMap.mpr ⟨pr, hpr, by rw [if_pos hocc]⟩
    have hlen2 : (sortByCount (keyTermHits text)).length ≤ 10 :=
      hperm.length_eq ▸ hlen
    rw [heq, List.take_of_length_le hlen2]
    exact hperm.mem_iff.mpr hmem

/-- Witness for C3 (amended) at a concrete input. -/
theorem c3_key_terms_amended_witness :
    extract_key_terms "A brilliant, brilliant masterpiece.".data =
      [⟨"brilliant", "positive", 2⟩, ⟨"masterpiece", "positive", 1⟩] ∧
    ((⟨"brilliant", "positive", 2⟩ : KeyTerm).term,
      (⟨"brilliant", "positive", 2⟩ : KeyTerm).sentiment) ∈ lexiconPairs ∧
    occursIn "brilliant".data ("A brilliant, brilliant masterpiece.".data.map Char.toLower) =
      true ∧
    (⟨"brilliant", "positive", 2⟩ : KeyTerm).count =
      countWord "brilliant".data
        ("A brilliant, brilliant masterpiece.".data.map Char.toLower) := by
  have h := (c3_key_terms_amended "A brilliant, brilliant masterpiece.".data).2.2.2.2.2.1
    ⟨"brilliant", "positive", 2⟩ (by decide)
  exact ⟨by decide, h.1, h.2.1, h.2.2⟩

/-- C3 counterexample: in the text `"dullard"` the lexicon term `"dull"` does
not occur as a whole word (its whole-word count is 0), yet it is listed among
the key terms — membership is tested by substring, not whole word. -/
theorem c3_counterexample :
    extract_key_terms "dullard".data = [⟨"dull", "negative", 0⟩] ∧
    countWord "dull".data ("dullard".data.map Char.toLower) = 0 :=
  ⟨by decide, by decide⟩

/-! ### Disk cache (`utils/cache.py`)

The file system is explicit: an association list from file paths to file
contents.  A well-formed cache file holds a pickled `{timestamp, value}` pair;
`corrupt` models a file whose deserialization fails.  `time.time()` instants
are passed explicitly as integers. -/

/-- Contents of one cache file. -/
inductive FileData (V : Type) where
  | entry (timestamp : Int) (value : V)
  | corrupt
deriving DecidableEq, Repr

/-- The cache directory: one file per path. -/
def FS (V : Type) : Type := List (String × FileData V)

/-- Read the file at `p`, if present (first binding wins, as `fsWrite` keeps
paths unique). -/
def fsRead {V : Type} : FS V → String → Option (FileData V)
  | [], _ => none
  | (q, d) :: rest, p => if q = p then some d else fsRead rest p

/-- Model of `os.remove`: drop every binding of path `p`. -/
def fsErase {V : Type} : FS V → String → FS V
  | [], _ => []
  | (q, d) :: rest, p => if q = p then fsErase rest p else (q, d) :: fsErase rest p

/-- Overwrite the file at path `p`. -/
def fsWrite {V : Type} (fs : FS V) (p : String) (d : FileData V) : FS V :=
  (p, d) :: fsErase fs p

/-- Cache configuration (`Cache.__init__`). -/
structure Cache where
  enabled : Bool
  expiry : Int
  cache_dir : String

/-- Step of `Cache._get_cache_path` making the safe filename: every non-alphanumeric
character becomes the filler `'_'`. -/
def safeKey (key : String) : String :=
  String.mk (key.data.map fun c => if c.isAlphanum then c else '_')

/-- Method `Cache._get_cache_path`. -/
def get_cache_path (c : Cache) (key : String) : String :=
  c.cache_dir ++ "/" ++ safeKey key ++ ".pkl"

/-- Method `Cache.exists`: disabled caches report false, otherwise a pure existence
check of the backing file. -/
def cacheExists {V : Type} (c : Cache) (fs : FS V) (key : String) : Bool :=
  c.enabled && (fsRead fs (get_cache_path c key)).isSome

/-- Method `Cache.get` at instant `now`: returns the value (or `none`) together with
the file system after any lazy eviction. -/
def cacheGet {V : Type} (c : Cache) (fs : FS V) (now : Int) (key : String) :
    Option V × FS V :=
  if ¬(c.enabled = true ∧ cacheExists c fs key = true) then (none, fs)
  else
    match fsRead fs (get_cache_path c key) with
    | some (.entry t v) =>
      if now - t > c.expiry then (none, fsErase fs (get_cache_path c key))
      else (some v, fs)
    | some .corrupt => (none, fsErase fs (get_cache_path c key))
    | none => (none, fs)

/-- Method `Cache.set` at instant `now`: returns the success flag and the new file
system. -/
def cacheSet {V : Type} (c : Cache) (fs : FS V) (now : Int) (key : String)
    (v : V) : Bool × FS V :=
  if ¬(c.enabled = true) then (false, fs)
  else (true, fsWrite fs (get_cache_path c key) (.entry now v))

theorem fsRead_fsWrite_self {V : Type} (fs : FS V) (p : String) (d : FileData V) :
    fsRead (fsWrite fs p d) p = some d := by
  simp [fsWrite, fsRead]

theorem fsRead_fsErase_self {V : Type} (fs : FS V) (p : String) :
    fsRead (fsErase fs p) p = none := by
  induction fs with
  | nil => rfl
  | cons hd rest ih =>
    obtain ⟨q, d⟩ := hd
    by_cases hq : q = p
    · simp [fsErase, hq, ih]
    · simp [fsErase, fsRead, hq, ih]

/-- C4: on an enabled cache, reading a key whose stored entry is older than
the expiry returns the absent marker and evicts the backing file, so a
subsequent `exists` check reports false. -/
theorem c4_cache_expiry {V : Type} (c : Cache) (fs : FS V) (now t : Int)
    (k : String) (v : V)
    (henabled : c.enabled = true)
    (hentry : fsRead fs (get_cache_path c k) = some (.entry t v))
    (hexpired : now - t > c.expiry) :
    (cacheGet c fs now k).1 = none ∧
    cacheExists c (cacheGet c fs now k).2 k = false := by
  have hex : cacheExists c fs k = true := by
    simp [cacheExists, henabled, hentry]
  have hget : cacheGet c fs now k = (none, fsErase fs (get_cache_path c k)) := by
    rw [cacheGet, if_neg (by simp [henabled, hex]), hentry]
    simp [hexpired]
  rw [hget]
  refine ⟨rfl, ?_⟩
  simp [cacheExists, fsRead_fsErase_self]

/-- Witness for C4 at a concrete instance. -/
theorem c4_cache_expiry_witness :
    (Cache.mk true 10 "cachedir").enabled = true ∧
    fsRead [(get_cache_path (Cache.mk true 10 "cachedir") "k", FileData.entry 0 (42 : Nat))]
        (get_cache_path (Cache.mk true 10 "cachedir") "k") =
      some (.entry 0 (42 : Nat)) ∧
    ((11 : Int) - 0 > (Cache.mk true 10 "cachedir").expiry) ∧
    (cacheGet (Cache.mk true 10 "cachedir")
        [(get_cache_path (Cache.mk true 10 "cachedir") "k", FileData.entry 0 (42 : Nat))]
        11 "k").1 = none ∧
    cacheExists (Cache.mk true 10 "cachedir")
        (cacheGet (Cache.mk true 10 "cachedir")
          [(get_cache_path (Cache.mk true 10 "cachedir") "k", FileData.entry 0 (42 : Nat))]
          11 "k").2 "k" = false := by
  refine ⟨rfl, by decide, by decide, ?_⟩
  exact c4_cache_expiry (Cache.mk true 10 "cachedir") _ 11 0 "k" 42 rfl (by decide) (by decide)

/-- C5: on an enabled cache, `set` immediately followed by `get` within the
expiry window returns the stored value unchanged, for every value of every
type. -/
theorem c5_cache_roundtrip {V : Type} (c : Cache) (fs : FS V) (now readNow : Int)
    (k : String) (v : V)
    (henabled : c.enabled = true)
    (hfresh : readNow - now < c.expiry) :
    (cacheGet c (cacheSet c fs now k v).2 readNow k).1 = some v := by
  have hset : (cacheSet c fs now k v).2 = fsWrite fs (get_cache_path c k) (.entry now v) := by
    rw [cacheSet, if_neg (by simp [henabled])]
  rw [hset]
  have hread := fsRead_fsWrite_self fs (get_cache_path c k) (FileData.entry now v)
  have hex : cacheExists c (fsWrite fs (get_cache_path c k) (.entry now v)) k = true := by
    simp [cacheExists, henabled, hread]
  rw [cacheGet, if_neg (by simp [henabled, hex]), hread]
  simp [show ¬(readNow - now > c.expiry) by omega]

/-- Witness for C5 at a concrete instance. -/
theorem c5_cache_roundtrip_witness :
    (Cache.mk true 10 "cachedir").enabled = true ∧
    ((3 : Int) - 3 < (Cache.mk true 10 "cachedir").expiry) ∧
    (cacheGet (Cache.mk true 10 "cachedir")
        (cacheSet (Cache.mk true 10 "cachedir") ([] : FS Nat) 3 "latest:10" 42).2
        3 "latest:10").1 = some 42 :=
  ⟨rfl, by decide,
   c5_cache_roundtrip (Cache.mk true 10 "cachedir") [] 3 3 "latest:10" 42 rfl (by decide)⟩

/-- C8: the backing path replaces every non-alphanumeric character of the key
with the fixed filler `'_'` (positional characterization), so two distinct
keys that agree after the replacement share one path, and a value `set` under
one key is returned by `get` under the other. -/
theorem c8_key_collision {V : Type} (c : Cache) (fs : FS V) (now : Int)
    (k1 k2 : String) (v : V)
    (henabled : c.enabled = true)
    (hexp : 0 ≤ c.expiry)
    (hne : k1 ≠ k2)
    (hcollide : safeKey k1 = safeKey k2) :
    get_cache_path c k1 = get_cache_path c k2 ∧
    (cacheGet c (cacheSet c fs now k1 v).2 now k2).1 = some v ∧
    (∀ (k : String) (i : Nat) (c0 : Char), (safeKey k).data[i]? = some c0 →
      ∃ c1, k.data[i]? = some c1 ∧
        ((c1.isAlphanum = true ∧ c0 = c1) ∨ (c1.isAlphanum = false ∧ c0 = '_'))) := by
  have hpath : get_cache_path c k1 = get_cache_path c k2 := by
    rw [get_cache_path, get_cache_path, hcollide]
  refine ⟨hpath, ?_, ?_⟩
  · have hset : (cacheSet c fs now k1 v).2 =
        fsWrite fs (get_cache_path c k1) (.entry now v) := by
      rw [cacheSet, if_neg (by simp [henabled])]
    rw [hset, hpath]
    have hread := fsRead_fsWrite_self fs (get_cache_path c k2) (FileData.entry now v)
    have hex : cacheExists c (fsWrite fs (get_cache_path c k2) (.entry now v)) k2 = true := by
      simp [cacheExists, henabled, hread]
    rw [cacheGet, if_neg (by simp [henabled, hex]), hread]
    simp [show ¬(now - now > c.expiry) by omega, show ¬(c.expiry < 0) by omega]
  · intro k i c0 h0
    have hmap : (safeKey k).data = k.data.map fun c => if c.isAlphanum then c else '_' := rfl
    rw [hmap, List.getElem?_map] at h0
    cases h1 : k.data[i]? with
    | none => rw [h1] at h0; cases h0
    | some c1 =>
      rw [h1] at h0
      simp only [Option.map_some', Option.some.injEq] at h0
      refine ⟨c1, rfl, ?_⟩
      by_cases ha : c1.isAlphanum = true
      · left
        rw [if_pos ha] at h0
        exact ⟨ha, h0.symm⟩
      · right
        rw [if_neg ha] at h0
        exact ⟨Bool.of_not_eq_true ha, h0.symm⟩

/-- Witness for C8 at the spec's own example: `"review:a/b"` and
`"review:a_b"` collide. -/
theorem c8_key_collision_witness :
    ("review:a/b" : String) ≠ "review:a_b" ∧
    safeKey "review:a/b" = safeKey "review:a_b" ∧
    get_cache_path (Cache.mk true 100 "cachedir") "review:a/b" =
      get_cache_path (Cache.mk true 100 "cachedir") "review:a_b" ∧
    (cacheGet (Cache.mk true 100 "cachedir")
        (cacheSet (Cache.mk true 100 "cachedir") ([] : FS Nat) 0 "review:a/b" 7).2
        0 "review:a_b").1 = some 7 := by
  have h := c8_key_collision (Cache.mk true 100 "cachedir") ([] : FS Nat) 0
    "review:a/b" "review:a_b" 7 rfl (by decide) (by decide) (by decide)
  exact ⟨by decide, by decide, h.1, h.2.1⟩

/-! ### Review extraction (`scraper.py`, `PitchforkScraper.get_review`)

The parsed HTML document is made explicit: for each fixed selector the model
records the element `select_one` resolves to (`none` when the selector misses)
or the list `select` returns.  An element carries its extracted text; the
`<time>` element carries its optional `datetime` attribute (`["datetime"]` on
a missing attribute raises `KeyError`, which the surrounding `try` re-raises). -/

/-- An element as the extractor consumes it: its (raw) text.  For the body
element the text field stands for `get_text(" ", strip=True)`. -/
structure Elem where
  text : String
deriving DecidableEq, Repr

/-- The `time.pub-date` element with its optional `datetime` attribute. -/
structure TimeElem where
  datetime : Option String
deriving DecidableEq, Repr

/-- One `.track-review` item. -/
structure TrackItem where
  titleElem : Option Elem
  contentElem : Option Elem
deriving DecidableEq, Repr

/-- The `.track-reviews` container. -/
structure TrackSection where
  items : List TrackItem
deriving DecidableEq, Repr

/-- A parsed review page, as seen through the fixed selectors of
`get_review`, `_extract_metadata` and `_extract_tracks`. -/
structure ReviewDoc where
  titleElem : Option Elem
  artistElem : Option Elem
  scoreElem : Option Elem
  contentElem : Option Elem
  publishedElem : Option TimeElem
  metaElem : Option Elem
  genreElems : List Elem
  trackSection : Option TrackSection
deriving DecidableEq, Repr

structure Track where
  title : String
  content : String
deriving DecidableEq, Repr

/-- The extracted review record.  `published_date` keeps the raw `datetime`
attribute string (the never-raising `extract_date` value parse is elided — no
claim concerns the parsed date value); `metaText` keeps the cleaned tombstone
text (the never-raising `label • year` regex split is elided likewise). -/
structure ReviewData where
  title : String
  artist : String
  score : Option ℚ
  content : String
  url : String
  published_date : Option String
  metaText : Option String
  genres : Option (List String)
  tracks : List Track
deriving DecidableEq, Repr

def digitsToNat (ds : List Char) : Nat :=
  ds.foldl (fun n c => 10 * n + (c.toNat - '0'.toNat)) 0

/-- Sign handling of a Python `float` literal. -/
def stripSign : List Char → Bool × List Char
  | '+' :: r => (false, r)
  | '-' :: r => (true, r)
  | r => (false, r)

/-- Model of Python `float(text)` on plain decimal literals: optional
whitespace, optional sign, digits with an optional single point
(`inf`/`nan`/exponents/underscores are not modelled; every theorem below uses
the parser only through success at plain numerals and failure at
non-numerals, where it agrees with Python). -/
def parsePyFloat (s : String) : Option ℚ :=
  let t := ((s.data.dropWhile isPySpace).reverse.dropWhile isPySpace).reverse
  let sgn := stripSign t
  let rest := sgn.2
  let ip := rest.takeWhile Char.isDigit
  let rest2 := rest.dropWhile Char.isDigit
  let mag : Option ℚ :=
    match rest2 with
    | [] => if ip.isEmpty then none else some ((digitsToNat ip : ℚ))
    | '.' :: fp =>
      if fp.all Char.isDigit && !(ip.isEmpty && fp.isEmpty) then
        some ((digitsToNat ip : ℚ) + (digitsToNat fp : ℚ) / (10 : ℚ) ^ fp.length)
      else none
    | _ => none
  mag.map fun q => if sgn.1 then -q else q

/-- Method `_extract_metadata`: the cleaned tombstone text when the meta selector
hits, and the cleaned genre texts when the genre selector hits at least one
element (the `genres` key is absent otherwise).  Never fails. -/
def extract_metadata (doc : ReviewDoc) : Option String × Option (List String) :=
  (doc.metaElem.map fun e => cleanTextS e.text,
   if doc.genreElems.isEmpty then none
   else some (doc.genreElems.map fun e => cleanTextS e.text))

/-- Method `_extract_tracks`: items without a title are skipped, content is
best-effort defaulting to the empty string.  Never fails. -/
def extract_tracks (doc : ReviewDoc) : List Track :=
  match doc.trackSection with
  | none => []
  | some sec =>
    sec.items.filterMap fun item =>
      match item.titleElem with
      | none => none
      | some te =>
        some ⟨cleanTextS te.text,
              match item.contentElem with
              | some ce => cleanTextS ce.text
              | none => ""⟩

/-- The `score` entry of the review dict: `float(score_elem.text)` raises
(and the surrounding `try` logs and re-raises) when the text does not parse. -/
def scoreStep (se? : Option Elem) : Except String (Option ℚ) :=
  match se? with
  | none => .ok none
  | some se =>
    match parsePyFloat se.text with
    | some q => .ok (some q)
    | none => .error "could not convert string to float"

/-- The `published_date` entry: `published_elem["datetime"]` raises `KeyError`
on a missing attribute; `extract_date` itself never raises. -/
def publishedStep (pe? : Option TimeElem) : Except String (Option String) :=
  match pe? with
  | none => .ok none
  | some pe =>
    match pe.datetime with
    | some d => .ok (some d)
    | none => .error "KeyError: datetime"

/-- Method `PitchforkScraper.get_review` after the HTTP fetch and parse: the
essential-elements check, then metadata/tracks, then the review dict whose
entries are evaluated in source order (score before published date).  Any
exception inside the `try` is logged and re-raised, modelled by
`Except.error`. -/
def get_review (doc : ReviewDoc) (url : String) : Except String ReviewData :=
  match doc.titleElem, doc.artistElem, doc.contentElem with
  | some te, some ae, some ce =>
    (scoreStep doc.scoreElem).bind fun score =>
      (publishedStep doc.publishedElem).bind fun pub =>
        .ok { title := cleanTextS te.text
              artist := cleanTextS ae.text
              score := score
              content := cleanTextS ce.text
              url := url
              published_date := pub
              metaText := (extract_metadata doc).1
              genres := (extract_metadata doc).2
              tracks := extract_tracks doc }
  | _, _, _ => .error "Missing essential review elements"

theorem scoreStep_cases (se? : Option Elem) :
    scoreStep se? = .ok none ∨ (∃ q, scoreStep se? = .ok (some q)) ∨
      scoreStep se? = .error "could not convert string to float" := by
  cases se? with
  | none => exact Or.inl rfl
  | some se =>
    cases hp : parsePyFloat se.text with
    | none =>
      right; right
      simp [scoreStep, hp]
    | some q =>
      right; left
      exact ⟨q, by simp [scoreStep, hp]⟩

theorem publishedStep_cases (pe? : Option TimeElem) :
    (∃ d, publishedStep pe? = .ok d) ∨ publishedStep pe? = .error "KeyError: datetime" := by
  cases pe? with
  | none => exact Or.inl ⟨none, rfl⟩
  | some pe =>
    cases hd : pe.datetime with
    | none =>
      right
      simp [publishedStep, hd]
    | some d =>
      left
      exact ⟨some d, by simp [publishedStep, hd]⟩

/-- C1 (amended): whenever any of the three required selectors (title, artist,
body text) misses, `get_review` fails with the one fixed essential-field error
`"Missing essential review elements"` — which does not name the absent field —
and in particular a document missing the body text always fails with exactly
this error regardless of what else is present; conversely, when all three are
present this error is never produced. -/
theorem c1_missing_essential (doc : ReviewDoc) (url : String) :
    ((doc.titleElem = none ∨ doc.artistElem = none ∨ doc.contentElem = none) →
      get_review doc url = .error "Missing essential review elements") ∧
    (doc.contentElem = none →
      get_review doc url = .error "Missing essential review elements") ∧
    (∀ te ae ce, doc.titleElem = some te → doc.artistElem = some ae →
      doc.contentElem = some ce →
      get_review doc url ≠ .error "Missing essential review elements") := by
  have hmiss : (doc.titleElem = none ∨ doc.artistElem = none ∨ doc.contentElem = none) →
      get_review doc url = .error "Missing essential review elements" := by
    obtain ⟨t?, a?, s?, c?, p?, m?, g, tr⟩ := doc
    intro h
    dsimp only at h
    unfold get_review
    dsimp only
    rcases h with h | h | h <;> subst h
    · cases a? <;> cases c? <;> rfl
    · cases t? <;> cases c? <;> rfl
    · cases t? <;> cases a? <;> rfl
  refine ⟨hmiss, fun h => hmiss (Or.inr (Or.inr h)), ?_⟩
  intro te ae ce h1 h2 h3 hcl
  unfold get_review at hcl
  rw [h1, h2, h3] at hcl
  simp only [] at hcl
  rcases scoreStep_cases doc.scoreElem with hs | ⟨q, hs⟩ | hs <;>
    rw [hs] at hcl <;> simp only [Except.bind] at hcl
  · rcases publishedStep_cases doc.publishedElem with ⟨d, hp⟩ | hp <;>
      rw [hp] at hcl <;> simp only [Except.bind] at hcl
    · exact Except.noConfusion hcl
    · injection hcl with hstr
      exact absurd hstr (by decide)
  · rcases publishedStep_cases doc.publishedElem with ⟨d, hp⟩ | hp <;>
      rw [hp] at hcl <;> simp only [Except.bind] at hcl
    · exact Except.noConfusion hcl
    · injection hcl with hstr
      exact absurd hstr (by decide)
  · injection hcl with hstr
    exact absurd hstr (by decide)

/-- A review page missing only the body-text element. -/
def docNoBody : ReviewDoc :=
  { titleElem := some ⟨"OK Computer"⟩
    artistElem := some ⟨"Radiohead"⟩
    scoreElem := some ⟨"10.0"⟩
    contentElem := none
    publishedElem := some ⟨some "1997-06-01T00:00:00Z"⟩
    metaElem := some ⟨"XL Recordings - 1997"⟩
    genreElems := [⟨"Rock"⟩]
    trackSection := none }

/-- A review page missing only the title element. -/
def docNoTitle : ReviewDoc :=
  { docNoBody with
    titleElem := none
    contentElem := some ⟨"A fine record."⟩ }

/-- A review page with all essential elements present but a score element
whose text does not parse as a float. -/
def docBadScore : ReviewDoc :=
  { titleElem := some ⟨"OK Computer"⟩
    artistElem := some ⟨"Radiohead"⟩
    scoreElem := some ⟨"N/A"⟩
    contentElem := some ⟨"A groundbreaking album."⟩
    publishedElem := none
    metaElem := none
    genreElems := []
    trackSection := none }

/-- Witness for C1 (amended) at a concrete document. -/
theorem c1_missing_essential_witness :
    docNoBody.contentElem = none ∧
    get_review docNoBody "https://pitchfork.com/reviews/albums/ok-computer/" =
      .error "Missing essential review elements" :=
  ⟨rfl,
   (c1_missing_essential docNoBody "https://pitchfork.com/reviews/albums/ok-computer/").2.1
     rfl⟩

/-- C1 counterexample: documents missing different essential fields (title
vs. body text) yield the identical fixed error value, so the error cannot be
naming which field was absent. -/
theorem c1_counterexample :
    docNoTitle.titleElem = none ∧ docNoTitle.contentElem.isSome = true ∧
    docNoBody.titleElem.isSome = true ∧ docNoBody.contentElem = none ∧
    get_review docNoTitle "u" = .error "Missing essential review elements" ∧
    get_review docNoBody "u" = .error "Missing essential review elements" := by
  refine ⟨rfl, rfl, rfl, rfl, rfl, rfl⟩

theorem get_review_ok_score (doc : ReviewDoc) (url : String) (rd : ReviewData)
    (hok : get_review doc url = .ok rd) : scoreStep doc.scoreElem = .ok rd.score := by
  obtain ⟨t?, a?, s?, c?, p?, m?, g, tr⟩ := doc
  cases t? with
  | none => exact Except.noConfusion hok
  | some te =>
  cases a? with
  | none => exact Except.noConfusion hok
  | some ae =>
  cases c? with
  | none => exact Except.noConfusion hok
  | some ce =>
  unfold get_review at hok
  dsimp only at hok
  cases hs : scoreStep s? with
  | error e =>
    rw [hs] at hok
    exact Except.noConfusion hok
  | ok sc =>
    rw [hs] at hok
    simp only [Except.bind] at hok
    cases hp : publishedStep p? with
    | error e =>
      rw [hp] at hok
      exact Except.noConfusion hok
    | ok pub =>
      rw [hp] at hok
      simp only [Except.bind] at hok
      injection hok with hrec
      rw [← hrec]

/-- C2 (amended): when the required fields are present and the first score
element's text does not parse as a floating-point number, review extraction
fails with the float-conversion error — the parse failure is fatal and is
re-raised; the returned record has `score = None` exactly when the score
selector resolves to no element. -/
theorem c2_score_parse_fatal :
    (∀ (doc : ReviewDoc) (url : String) (te ae ce se : Elem),
      doc.titleElem = some te → doc.artistElem = some ae → doc.contentElem = some ce →
      doc.scoreElem = some se → parsePyFloat se.text = none →
      get_review doc url = .error "could not convert string to float") ∧
    (∀ (doc : ReviewDoc) (url : String) (rd : ReviewData),
      get_review doc url = .ok rd → (rd.score = none ↔ doc.scoreElem = none)) := by
  constructor
  · intro doc url te ae ce se h1 h2 h3 h4 h5
    obtain ⟨t?, a?, s?, c?, p?, m?, g, tr⟩ := doc
    dsimp only at h1 h2 h3 h4
    subst h1
    subst h2
    subst h3
    subst h4
    unfold get_review
    dsimp only
    have hs : scoreStep (some se) = .error "could not convert string to float" := by
      simp [scoreStep, h5]
    rw [hs]
    rfl
  · intro doc url rd hok
    have hs := get_review_ok_score doc url rd hok
    cases hd : doc.scoreElem with
    | none =>
      rw [hd] at hs
      simp only [scoreStep] at hs
      injection hs with hval
      simp [← hval]
    | some se =>
      rw [hd] at hs
      cases hp : parsePyFloat se.text with
      | none => simp [scoreStep, hp] at hs
      | some q =>
        simp only [scoreStep, hp] at hs
        injection hs with hval
        constructor
        · intro h
          rw [← hval] at h
          exact Option.noConfusion h
        · intro h
          exact Option.noConfusion h

/-- Witness for C2 (amended) at a concrete document. -/
theorem c2_score_parse_fatal_witness :
    docBadScore.titleElem = some ⟨"OK Computer"⟩ ∧
    docBadScore.scoreElem = some ⟨"N/A"⟩ ∧
    parsePyFloat "N/A" = none ∧
    get_review docBadScore "u" = .error "could not convert string to float" :=
  ⟨rfl, rfl, by decide,
   c2_score_parse_fatal.1 docBadScore "u" ⟨"OK Computer"⟩ ⟨"Radiohead"⟩
     ⟨"A groundbreaking album."⟩ ⟨"N/A"⟩ rfl rfl rfl rfl (by decide)⟩

/-- C2 counterexample: a document whose required fields are all present and
whose score text is `"N/A"` does not extract successfully with `score = None`
— extraction fails with the float-conversion error instead. -/
theorem c2_counterexample :
    (∀ rd : ReviewData, get_review docBadScore "u" ≠ .ok rd) ∧
    get_review docBadScore "u" = .error "could not convert string to float" := by
  have h : get_review docBadScore "u" = .error "could not convert string to float" := rfl
  exact ⟨fun rd hrd => Except.noConfusion (h ▸ hrd), h⟩

/-! ### Pagination (`scraper.py`, `PitchforkScraper.get_latest_reviews`)

The network is a collaborator: `pageUrls p` is the URL list
`_get_review_urls_from_page(p)` yields for page `p`, and `fetch u` is the
outcome of `self.get_review(u)` (`none` when it raises, in which case the
loop logs and skips the URL).  The Python `while` loop terminates only when
supply runs out, so the model carries explicit fuel bounding the number of
page iterations; every property below holds for every fuel value. -/

/-- Inner `for url in urls` loop body of `get_latest_reviews`. -/
def processUrls {R : Type} (count : Nat) (fetch : String → Option R) :
    List String → List R → List R
  | [], acc => acc
  | u :: rest, acc =>
    if count ≤ acc.length then acc
    else
      match fetch u with
      | some r => processUrls count fetch rest (acc ++ [r])
      | none => processUrls count fetch rest acc

/-- Outer `while len(reviews) < count` loop of `get_latest_reviews`,
returning `reviews[:count]` at every exit. -/
def getLatestGo {R : Type} (pageUrls : Nat → List String) (fetch : String → Option R)
    (count : Nat) : Nat → Nat → List R → List R
  | 0, _, acc => acc.take count
  | fuel + 1, page, acc =>
    if count ≤ acc.length then acc.take count
    else
      if (pageUrls page).isEmpty then acc.take count
      else
        getLatestGo pageUrls fetch count fuel (page + 1)
          (processUrls count fetch (pageUrls page) acc)

/-- Method `PitchforkScraper.get_latest_reviews`: accumulator starts empty, page
counter starts at 1. -/
def get_latest_reviews {R : Type} (pageUrls : Nat → List String)
    (fetch : String → Option R) (count fuel : Nat) : List R :=
  getLatestGo pageUrls fetch count fuel 1 []

/-- Specification-side stream: the successful fetches, page by page from
`page`, stopping at the first page that yields no URLs (or when fuel runs
out); failed fetches contribute nothing. -/
def successesUpTo {R : Type} (pageUrls : Nat → List String)
    (fetch : String → Option R) : Nat → Nat → List R
  | 0, _ => []
  | fuel + 1, page =>
    if (pageUrls page).isEmpty then []
    else (pageUrls page).filterMap fetch ++ successesUpTo pageUrls fetch fuel (page + 1)

theorem take_append_take {α : Type} (l s : List α) (n : Nat) :
    (l.take n ++ s).take n = (l ++ s).take n := by
  have h1 : (l.take n).take n = l.take n := by
    rw [List.take_take, Nat.min_self]
  rw [List.take_append_eq_append_take, List.take_append_eq_append_take, h1,
    List.length_take]
  congr 2
  omega

theorem processUrls_length {R : Type} (count : Nat) (fetch : String → Option R) :
    ∀ (urls : List String) (acc : List R), acc.length ≤ count →
      (processUrls count fetch urls acc).length ≤ count := by
  intro urls
  induction urls with
  | nil =>
    intro acc h
    simpa [processUrls] using h
  | cons u rest ih =>
    intro acc h
    rw [processUrls]
    by_cases hc : count ≤ acc.length
    · rw [if_pos hc]
      exact h
    · rw [if_neg hc]
      cases fetch u with
      | some r =>
        refine ih (acc ++ [r]) ?_
        simp only [List.length_append, List.length_cons, List.length_nil]
        omega
      | none => exact ih acc h

theorem processUrls_eq {R : Type} (count : Nat) (fetch : String → Option R) :
    ∀ (urls : List String) (acc : List R), acc.length ≤ count →
      processUrls count fetch urls acc = (acc ++ urls.filterMap fetch).take count := by
  intro urls
  induction urls with
  | nil =>
    intro acc h
    rw [processUrls]
    rw [List.filterMap_nil, List.append_nil, List.take_of_length_le h]
  | cons u rest ih =>
    intro acc h
    by_cases hc : count ≤ acc.length
    · rw [processUrls, if_pos hc, List.take_append_of_le_length hc,
        List.take_of_length_le h]
    · cases hf : fetch u with
      | some r =>
        rw [processUrls, if_neg hc, hf]
        change processUrls count fetch rest (acc ++ [r]) = _
        rw [ih (acc ++ [r])
            (by simp only [List.length_append, List.length_cons, List.length_nil]; omega),
          List.filterMap_cons_some hf, List.append_assoc]
        rfl
      | none =>
        rw [processUrls, if_neg hc, hf]
        change processUrls count fetch rest acc = _
        rw [ih acc h, List.filterMap_cons_none hf]

theorem getLatestGo_eq {R : Type} (pageUrls : Nat → List String)
    (fetch : String → Option R) (count : Nat) :
    ∀ (fuel page : Nat) (acc : List R), acc.length ≤ count →
      getLatestGo pageUrls fetch count fuel page acc =
        (acc ++ successesUpTo pageUrls fetch fuel page).take count := by
  intro fuel
  induction fuel with
  | zero =>
    intro page acc h
    rw [getLatestGo, successesUpTo, List.append_nil]
  | succ fuel ih =>
    intro page acc h
    rw [getLatestGo, successesUpTo]
    by_cases hc : count ≤ acc.length
    · rw [if_pos hc, List.take_append_of_le_length hc, List.take_of_length_le h]
    · rw [if_neg hc]
      by_cases he : (pageUrls page).isEmpty = true
      · rw [if_pos he, if_pos he, List.append_nil]
      · rw [if_neg he, if_neg he,
          ih (page + 1) _ (processUrls_length count fetch _ _ h),
          processUrls_eq count fetch _ _ h, take_append_take, List.append_assoc]

/-- C7: for every requested count, every page→URL-list function and every
per-URL fetch outcome (and every fuel bound on the page loop),
`get_latest_reviews` returns exactly the first `count` successful fetches of
the pages scanned up to the first empty page — so it returns at most `count`
reviews, a failed fetch of a single URL is skipped without aborting the
batch, and an empty page ends the batch normally with a possibly
shorter-than-requested list. -/
theorem c7_get_latest_reviews_spec {R : Type} (pageUrls : Nat → List String)
    (fetch : String → Option R) (count fuel : Nat) :
    get_latest_reviews pageUrls fetch count fuel =
      (successesUpTo pageUrls fetch fuel 1).take count ∧
    (get_latest_reviews pageUrls fetch count fuel).length ≤ count := by
  have h := getLatestGo_eq pageUrls fetch count fuel 1 [] (by simp)
  rw [List.nil_append] at h
  refine ⟨by rw [get_latest_reviews, h], ?_⟩
  rw [get_latest_reviews, h]
  exact List.length_take_le _ _

/-- Witness for C6 at concrete polarity values, one per bucket, boundary
values included. -/
theorem c6_get_assessment_buckets_witness :
    get_assessment (7/10) = "very positive" ∧
    get_assessment (2/10) = "positive" ∧
    get_assessment 0 = "neutral" ∧
    get_assessment (-(2/10)) = "negative" ∧
    get_assessment (-(6/10)) = "very negative" :=
  ⟨(c6_get_assessment_buckets (7/10)).1.mpr (by norm_num),
   (c6_get_assessment_buckets (2/10)).2.1.mpr (by norm_num),
   (c6_get_assessment_buckets 0).2.2.1.mpr (by norm_num),
   (c6_get_assessment_buckets (-(2/10))).2.2.2.1.mpr (by norm_num),
   (c6_get_assessment_buckets (-(6/10))).2.2.2.2.1.mpr (by norm_num)⟩

/-- Concrete page supply for the C7 witness: pages 1 to 3 carry two URLs,
every later page is empty. -/
def wPages : Nat → List String := fun p => if p ≤ 3 then ["a", "b"] else []

/-- Concrete fetch outcomes for the C7 witness: URL `"a"` extracts, URL `"b"`
fails and is skipped. -/
def wFetch : String → Option Nat := fun u => if u = "a" then some 1 else none

/-- Witness for C7: requesting 10 reviews when every page after the third is
empty and one URL per page fails yields 3 reviews, without error. -/
theorem c7_get_latest_reviews_spec_witness :
    get_latest_reviews wPages wFetch 10 5 = [1, 1, 1] ∧
    (get_latest_reviews wPages wFetch 10 5).length ≤ 10 :=
  ⟨by decide, (c7_get_latest_reviews_spec wPages wFetch 10 5).2⟩

end PitchforkApi
